import Mathlib

/-!
Verification of the secure-OTA firmware client (src/firmware/src/fimware.cpp)
against its natural-language specification.

The development shallowly embeds the parts of the program the claims are
about:

* `compareVersionStrings` (fimware.cpp lines 322-353): the dotted-integer
  version comparator.  The C loop carries no bound and can fail to make
  progress, so the embedding runs the loop body on explicit fuel
  (`compareLoop`); `compareLoop fuel l r = none` for every `fuel` means the
  C loop never returns on those inputs.  Arduino `String` indexing over an
  immutable string is modelled by consuming a `List Char`.  The C
  accumulator `long leftPart` is modelled as an unbounded `Nat`: on the
  target signed overflow is undefined behaviour, the spec requires no
  overflow guard, and no claim is about overflowing segments.
* `extractTagName` (fimware.cpp lines 113-121): the release-listing
  resolver's `tag_name` extraction via `String.indexOf` / `substring`.
* A model of the mbedtls incremental SHA-256 interface used at lines
  252-284: a state machine that buffers bytes and compresses full 64-byte
  blocks (`absorbByte`/`sha256Update`/`sha256Final`) with the real SHA-256
  compression function.
* `performSecureUpdate` (fimware.cpp lines 218-319): the update
  orchestrator, as a function from an environment (the responses of the
  external HTTP transport, flash API and signature verifier) to a result
  and a trace of the flash/hash/verify operations it invoked.
* `loopStep`/`handleErrorState` (fimware.cpp lines 46-72 and 375-380): the
  scheduler tick and the error handler, over the program's only global
  mutable state (the two timer variables declared at lines 20-21).
-/

/-! ## Version comparator (fimware.cpp 322-353) -/

/-- Arduino `isDigit`: an ASCII decimal digit. -/
def isDig (c : Char) : Bool := decide ('0' ≤ c) && decide (c ≤ '9')

/-- The inner scanning loops (lines 330-333 / 338-341): consume leading
digits, accumulating `part = part * 10 + (c - '0')`; return the
accumulated value and the unconsumed remainder of the string. -/
def parseDigits : List Char → Nat → Nat × List Char
  | [], acc => (acc, [])
  | c :: cs, acc =>
    if isDig c then parseDigits cs (acc * 10 + (c.toNat - 48)) else (acc, c :: cs)

/-- Lines 334-336 / 342-344: skip exactly one `'.'` if it is the next
character. -/
def skipDot : List Char → List Char
  | [] => []
  | c :: cs => if c = '.' then cs else c :: cs

/-- One side of one iteration of the `while (true)` loop: parse a numeric
segment, then skip one dot.  Both sides of the loop body are this same
function: the comparison couples the two strings only through the
comparison of the parsed values. -/
def stepStr (l : List Char) : Nat × List Char :=
  let p := parseDigits l 0
  (p.1, skipDot p.2)

/-- The `while (true)` loop of `compareVersionStrings`, run on explicit
fuel.  `some v` means the C loop returns `v` within `fuel` iterations;
`none` means it has not returned yet after `fuel` iterations. -/
def compareLoop : Nat → List Char → List Char → Option Int
  | 0, _, _ => none
  | fuel + 1, l, r =>
    let pl := stepStr l
    let pr := stepStr r
    if pr.1 < pl.1 then some 1
    else if pl.1 < pr.1 then some (-1)
    else if pl.2.isEmpty && pr.2.isEmpty then some 0
    else compareLoop fuel pl.2 pr.2

/-- `compareVersionStrings` with fuel `|l| + |r| + 1`, which is proved
sufficient whenever the strings contain only digits and dots
(`compareLoop_good_isSome`); on other inputs `none` reports that the C
loop did not return within that many iterations. -/
def compareVersionStrings (leftVersion rightVersion : String) : Option Int :=
  compareLoop (leftVersion.length + rightVersion.length + 1)
    leftVersion.data rightVersion.data

/-- A well-formed version string per the spec's data model: every
character is a decimal digit or a dot. -/
def goodVer (l : List Char) : Bool := l.all fun c => isDig c || c == '.'

/-- The sequence of numeric segments the loop parses from one string: the
first `n` values produced by iterating `stepStr`.  Once the string is
exhausted, `stepStr` yields segment `0` forever. -/
def partsList : List Char → Nat → List Nat
  | _, 0 => []
  | l, n + 1 => (stepStr l).1 :: partsList (stepStr l).2 n

/-- Lexicographic comparison of two equal-length segment lists; the value
`compareVersionStrings` is proved to compute. -/
def lexCmp : List Nat → List Nat → Int
  | a :: as, b :: bs => if b < a then 1 else if a < b then -1 else lexCmp as bs
  | _, _ => 0

/-! ## Release-listing resolver: tag extraction (fimware.cpp 113-121) -/

/-- Does `pat` stand character-for-character at the head of `hay`? -/
def headMatches : List Char → List Char → Bool
  | _, [] => true
  | [], _ :: _ => false
  | c :: cs, p :: ps => c == p && headMatches cs ps

/-- Arduino `String.indexOf(pat)` scanning positions `i, i+1, ...`:
the first position at which `pat` occurs, if any. -/
def findIdxAux (pat : List Char) : List Char → Nat → Option Nat
  | [], i => if headMatches [] pat then some i else none
  | c :: t, i =>
    if headMatches (c :: t) pat then some i else findIdxAux pat t (i + 1)

/-- `response.indexOf(pat)`. -/
def findIdx (hay pat : List Char) : Option Nat := findIdxAux pat hay 0

/-- `response.indexOf(pat, start)`: first occurrence at a position
`≥ start`, as an absolute index. -/
def findIdxFrom (hay pat : List Char) (start : Nat) : Option Nat :=
  (findIdxAux pat (hay.drop start) 0).map fun i => i + start

/-- The literal `"tag_name":"` search pattern of line 114 (12 characters,
matching the hard-coded `tagStart += 12` of line 116). -/
def tagNamePat : List Char := "\"tag_name\":\"".data

/-- Lines 113-121: `newVersion` as extracted from the GitHub release
response.  `indexOf("\"tag_name\":\"")`, skip the 12 pattern characters,
then take everything up to the next `'"'`.  `[]` models the
`newVersion.length() == 0` error path (line 123).  No transformation —
in particular no stripping of a leading `'v'` — is applied. -/
def extractTagName (response : List Char) : List Char :=
  match findIdx response tagNamePat with
  | none => []
  | some tagStart0 =>
    let tagStart := tagStart0 + 12
    match findIdxFrom response ['"'] tagStart with
    | none => []
    | some tagEnd => (response.drop tagStart).take (tagEnd - tagStart)

/-! ## SHA-256, as the mbedtls incremental interface used at lines 252-284

The digest accumulator is a state machine: a chain of eight 32-bit words,
a buffer of fewer than 64 pending bytes, and the total byte count.  Each
absorbed byte is appended to the buffer; a full 64-byte block is run
through the SHA-256 compression function.  `mbedtls_sha256_update_ret`
is absorbing each byte of the chunk in order; `mbedtls_sha256_finish_ret`
pads to a block boundary and returns the chain as 32 bytes.  All 32-bit
arithmetic is `Nat` reduced mod 2^32. -/

/-- Truncation to a 32-bit word. -/
def w32 (n : Nat) : Nat := n % 4294967296

/-- 32-bit right rotation. -/
def rotr (x n : Nat) : Nat := w32 (x / 2 ^ n + x % 2 ^ n * 2 ^ (32 - n))

/-- 32-bit complement. -/
def not32 (x : Nat) : Nat := Nat.xor x 4294967295

def shaCh (x y z : Nat) : Nat := Nat.xor (Nat.land x y) (Nat.land (not32 x) z)

def shaMaj (x y z : Nat) : Nat :=
  Nat.xor (Nat.xor (Nat.land x y) (Nat.land x z)) (Nat.land y z)

def bigSigma0 (x : Nat) : Nat := Nat.xor (Nat.xor (rotr x 2) (rotr x 13)) (rotr x 22)

def bigSigma1 (x : Nat) : Nat := Nat.xor (Nat.xor (rotr x 6) (rotr x 11)) (rotr x 25)

def smallSigma0 (x : Nat) : Nat := Nat.xor (Nat.xor (rotr x 7) (rotr x 18)) (x / 2 ^ 3)

def smallSigma1 (x : Nat) : Nat := Nat.xor (Nat.xor (rotr x 17) (rotr x 19)) (x / 2 ^ 10)

/-- The SHA-256 round constants. -/
def K256 : List Nat :=
  [1116352408, 1899447441, 3049323471, 3921009573,
   961987163, 1508970993, 2453635748, 2870763221,
   3624381080, 310598401, 607225278, 1426881987,
   1925078388, 2162078206, 2614888103, 3248222580,
   3835390401, 4022224774, 264347078, 604807628,
   770255983, 1249150122, 1555081692, 1996064986,
   2554220882, 2821834349, 2952996808, 3210313671,
   3336571891, 3584528711, 113926993, 338241895,
   666307205, 773529912, 1294757372, 1396182291,
   1695183700, 1986661051, 2177026350, 2456956037,
   2730485921, 2820302411, 3259730800, 3345764771,
   3516065817, 3600352804, 4094571909, 275423344,
   430227734, 506948616, 659060556, 883997877,
   958139571, 1322822218, 1537002063, 1747873779,
   1955562222, 2024104815, 2227730452, 2361852424,
   2428436474, 2756734187, 3204031479, 3329325298]

/-- The SHA-256 initial chaining value. -/
def H256 : List Nat :=
  [1779033703, 3144134277, 1013904242, 2773480762,
   1359893119, 2600822924, 528734635, 1541459225]

/-- Big-endian 32-bit words from a byte list (four bytes per word). -/
def toWords : List Nat → List Nat
  | b0 :: b1 :: b2 :: b3 :: rest =>
    (((b0 * 256 + b1) * 256 + b2) * 256 + b3) :: toWords rest
  | _ => []

/-- One extension step of the message schedule. -/
def nextScheduleWord (ws : List Nat) : Nat :=
  let t := ws.length
  w32 (smallSigma1 (ws.getD (t - 2) 0) + ws.getD (t - 7) 0 +
       smallSigma0 (ws.getD (t - 15) 0) + ws.getD (t - 16) 0)

/-- Extend the 16-word schedule by `n` further words. -/
def extendSchedule : List Nat → Nat → List Nat
  | ws, 0 => ws
  | ws, n + 1 => extendSchedule (ws ++ [nextScheduleWord ws]) n

/-- The eight working registers of the compression loop. -/
structure Regs where
  a : Nat
  b : Nat
  c : Nat
  d : Nat
  e : Nat
  f : Nat
  g : Nat
  h : Nat

/-- One round of the compression loop. -/
def roundStep (r : Regs) (kw : Nat × Nat) : Regs :=
  let t1 := w32 (r.h + bigSigma1 r.e + shaCh r.e r.f r.g + kw.1 + kw.2)
  let t2 := w32 (bigSigma0 r.a + shaMaj r.a r.b r.c)
  ⟨w32 (t1 + t2), r.a, r.b, r.c, w32 (r.d + t1), r.e, r.f, r.g⟩

/-- The SHA-256 compression function: fold 64 rounds over one 64-byte
block and add the result into the chaining value. -/
def shaCompress (chain : List Nat) (block : List Nat) : List Nat :=
  let ws := extendSchedule (toWords block) 48
  let r0 : Regs :=
    ⟨chain.getD 0 0, chain.getD 1 0, chain.getD 2 0, chain.getD 3 0,
     chain.getD 4 0, chain.getD 5 0, chain.getD 6 0, chain.getD 7 0⟩
  let r := (K256.zip ws).foldl roundStep r0
  List.zipWith (fun x y => w32 (x + y)) chain [r.a, r.b, r.c, r.d, r.e, r.f, r.g, r.h]

/-- The state of `mbedtls_sha256_context`: chaining value, pending bytes
(fewer than 64) and the total number of bytes absorbed. -/
structure ShaSt where
  chain : List Nat
  buf : List Nat
  total : Nat
deriving DecidableEq

/-- `mbedtls_sha256_init` / `mbedtls_sha256_starts_ret(ctx, 0)`. -/
def sha256Init : ShaSt := ⟨H256, [], 0⟩

/-- Absorb one byte: buffer it, and compress when a 64-byte block is
complete. -/
def absorbByte (st : ShaSt) (b : Nat) : ShaSt :=
  let nb := st.buf ++ [b % 256]
  if nb.length = 64 then ⟨shaCompress st.chain nb, [], st.total + 1⟩
  else ⟨st.chain, nb, st.total + 1⟩

/-- `mbedtls_sha256_update_ret`: absorb a chunk of bytes in order. -/
def sha256Update (st : ShaSt) (bs : List Nat) : ShaSt := bs.foldl absorbByte st

/-- Big-endian bytes of a 32-bit word. -/
def wordBytes (w : Nat) : List Nat :=
  [w / 16777216 % 256, w / 65536 % 256, w / 256 % 256, w % 256]

/-- Big-endian 8-byte encoding of the bit length. -/
def len64Bytes (n : Nat) : List Nat :=
  [n / 2 ^ 56 % 256, n / 2 ^ 48 % 256, n / 2 ^ 40 % 256, n / 2 ^ 32 % 256,
   n / 2 ^ 24 % 256, n / 2 ^ 16 % 256, n / 2 ^ 8 % 256, n % 256]

/-- `mbedtls_sha256_finish_ret`: pad with `0x80`, zeros and the 64-bit
bit length to a block boundary, absorb the padding, and emit the chain
as 32 big-endian bytes. -/
def sha256Final (st : ShaSt) : List Nat :=
  let z := (64 + 55 - st.buf.length % 64) % 64
  let msg := st.buf ++ 128 :: (List.replicate z 0 ++ len64Bytes (st.total * 8))
  let fin := msg.foldl absorbByte ⟨st.chain, [], 0⟩
  (fin.chain.map wordBytes).flatten

/-! ## Update orchestrator (fimware.cpp 218-319)

`performSecureUpdate` is embedded as a function of an environment that
fixes every response of the external collaborators — the HTTP transport,
the flash `Update` API and the mbedtls signature check — and yields the
error code surfaced (or `none` for the success path that reboots), the
trace of operations invoked on the flash transaction / digest / verifier,
and the cumulative byte count written. -/

/-- The observable operations of one `performSecureUpdate` run. -/
inductive Ev where
  /-- `Update.begin(contentLength)` succeeded: the flash transaction is open. -/
  | beginFlash : Nat → Ev
  /-- `Update.write(buffer, readLen)`: bytes given and bytes reported written. -/
  | writeChunk : Nat → Nat → Ev
  /-- `Update.abort()`. -/
  | abortFlash : Ev
  /-- `mbedtls_sha256_finish_ret`: the digest is finalized. -/
  | shaFinish : Ev
  /-- `verify_signature(...)` was called and returned this result. -/
  | verifySig : Bool → Ev
  /-- `Update.end()` (flash commit) was invoked and returned this result. -/
  | endFlash : Bool → Ev
  /-- `handleErrorState(code)`. -/
  | fail : String → Ev
  /-- `ESP.restart()` into the new firmware. -/
  | restart : Ev
deriving DecidableEq

/-- The external world of one run: HTTP codes and body for the firmware
and signature downloads, the flash API's responses, and the verifier's
verdict.  `chunks` are the successive `stream.readBytes` results; after
the list is exhausted `readBytes` returns 0 bytes (the source stops).
`writes` are the byte counts `Update.write` reports, call by call; a
missing entry (or `none`) means the write is reported in full. -/
structure Env where
  fwHttpCode : Int
  contentLength : Int
  beginOk : Bool
  chunks : List (List Nat)
  writes : List (Option Nat)
  sigHttpCode : Int
  verifyOk : Bool
  endOk : Bool

/-- What the download loop (lines 256-272) produced. -/
structure LoopOut where
  events : List Ev
  sha : ShaSt
  total : Nat
  err : Option String

/-- The `while (totalWritten < contentLength)` loop of lines 256-272:
read a chunk (`readBytes`; 0 bytes breaks the loop), `Update.write` it,
treat a short write as `FIRMWARE_WRITE_INCOMPLETE` (lines 263-268),
otherwise absorb the chunk into the digest and advance `totalWritten`. -/
def writeLoop : List (List Nat) → List (Option Nat) → Nat → ShaSt → Nat → LoopOut
  | [], _, _, sha, total => ⟨[], sha, total, none⟩
  | c :: cs, writes, len, sha, total =>
    if total < len then
      if c.length = 0 then ⟨[], sha, total, none⟩
      else
        let wrote := (writes.headD none).getD c.length
        if wrote ≠ c.length then
          ⟨[Ev.writeChunk c.length wrote], sha, total, some "FIRMWARE_WRITE_INCOMPLETE"⟩
        else
          let rest := writeLoop cs writes.tail len (sha256Update sha c) (total + c.length)
          ⟨Ev.writeChunk c.length wrote :: rest.events, rest.sha, rest.total, rest.err⟩
    else ⟨[], sha, total, none⟩

/-- The result of a run: the trace, the surfaced error code (`none` on
the success path, which reboots), and the final `totalWritten`. -/
structure RunOut where
  events : List Ev
  result : Option String
  total : Nat
deriving DecidableEq

/-- `performSecureUpdate` (lines 218-319), step by step:
download check (223) → content length check (231) → `Update.begin` (238)
→ download/write loop (256-272) → exact-length check (274) → digest
finalization (283) → signature download (287-295) → `verify_signature`
(302) → `Update.end` (310) → restart (318).  Every error branch calls
`handleErrorState` (`Ev.fail`); the branches after a successful `begin`
call `Update.abort()` first — except the `Update.end` failure branch
(lines 310-315), which does not. -/
def performSecureUpdate (env : Env) : RunOut :=
  if env.fwHttpCode ≠ 200 then
    ⟨[Ev.fail "FIRMWARE_DOWNLOAD_FAILED"], some "FIRMWARE_DOWNLOAD_FAILED", 0⟩
  else if env.contentLength ≤ 0 then
    ⟨[Ev.fail "INVALID_FIRMWARE_SIZE"], some "INVALID_FIRMWARE_SIZE", 0⟩
  else if env.beginOk = false then
    ⟨[Ev.fail "INSUFFICIENT_SPACE"], some "INSUFFICIENT_SPACE", 0⟩
  else
    let len := env.contentLength.toNat
    let lo := writeLoop env.chunks env.writes len sha256Init 0
    let evs := Ev.beginFlash len :: lo.events
    match lo.err with
    | some code => ⟨evs ++ [Ev.abortFlash, Ev.fail code], some code, lo.total⟩
    | none =>
      if lo.total ≠ len then
        ⟨evs ++ [Ev.abortFlash, Ev.fail "FIRMWARE_WRITE_INCOMPLETE"],
         some "FIRMWARE_WRITE_INCOMPLETE", lo.total⟩
      else
        let evs := evs ++ [Ev.shaFinish]
        if env.sigHttpCode ≠ 200 then
          ⟨evs ++ [Ev.abortFlash, Ev.fail "SIGNATURE_DOWNLOAD_FAILED"],
           some "SIGNATURE_DOWNLOAD_FAILED", lo.total⟩
        else
          let evs := evs ++ [Ev.verifySig env.verifyOk]
          if env.verifyOk = false then
            ⟨evs ++ [Ev.abortFlash, Ev.fail "SIGNATURE_VERIFICATION_FAILED"],
             some "SIGNATURE_VERIFICATION_FAILED", lo.total⟩
          else if env.endOk = false then
            ⟨evs ++ [Ev.endFlash false, Ev.fail "UPDATE_FINALIZE_FAILED"],
             some "UPDATE_FINALIZE_FAILED", lo.total⟩
          else
            ⟨evs ++ [Ev.endFlash true, Ev.restart], none, lo.total⟩

/-! ## Scheduler tick and error handler (fimware.cpp 46-72, 375-380) -/

/-- The program's only global mutable state (lines 20-21): the two
software timers.  There is no lockout flag among the globals. -/
structure SchedState where
  previousMillisUpdate : Nat
  previousMillisPrint : Nat
deriving DecidableEq

/-- `handleErrorState` (lines 375-380): prints the error code and the
lockout message, and delays 5 seconds.  It writes no global state, so on
the scheduler state it is the identity. -/
def handleErrorState (s : SchedState) (_errorCode : String) : SchedState := s

/-- `unsigned long` subtraction `currentMillis - previous` (32-bit wraparound). -/
def elapsedSince (now prev : Nat) : Nat := (now + 4294967296 - prev % 4294967296) % 4294967296

/-- One `loop()` invocation (lines 46-72) at time `currentMillis` with
the given WiFi status: if `UPDATE_CHECK_INTERVAL` has elapsed, reset the
update timer and invoke `checkForUpdates` whenever WiFi is connected
(the returned `Bool`); independently run the version-print timer. -/
def loopStep (s : SchedState) (currentMillis : Nat) (wifiConnected : Bool)
    (updateInterval printInterval : Nat) : SchedState × Bool :=
  let due := updateInterval ≤ elapsedSince currentMillis s.previousMillisUpdate
  let s1 := if due then { s with previousMillisUpdate := currentMillis } else s
  let checkInvoked := due && wifiConnected
  let s2 :=
    if printInterval ≤ elapsedSince currentMillis s1.previousMillisPrint then
      { s1 with previousMillisPrint := currentMillis }
    else s1
  (s2, checkInvoked)

/-! ## Lemmas about the version comparator -/

theorem parseDigits_length_le (l : List Char) (acc : Nat) :
    (parseDigits l acc).2.length ≤ l.length := by
  induction l generalizing acc with
  | nil => simp [parseDigits]
  | cons c cs ih =>
    simp only [parseDigits]
    split
    · exact le_trans (ih _) (Nat.le_succ _)
    · simp

theorem skipDot_length_le (l : List Char) : (skipDot l).length ≤ l.length := by
  cases l with
  | nil => simp [skipDot]
  | cons c cs =>
    simp only [skipDot]
    split <;> simp

theorem parseDigits_good (l : List Char) (acc : Nat) (h : goodVer l = true) :
    goodVer (parseDigits l acc).2 = true := by
  induction l generalizing acc with
  | nil => simpa [parseDigits] using h
  | cons c cs ih =>
    simp only [goodVer, List.all_cons, Bool.and_eq_true] at h
    simp only [parseDigits]
    split
    · exact ih _ h.2
    · simpa [goodVer, List.all_cons] using h

theorem skipDot_good (l : List Char) (h : goodVer l = true) :
    goodVer (skipDot l) = true := by
  cases l with
  | nil => simpa [skipDot] using h
  | cons c cs =>
    simp only [goodVer, List.all_cons, Bool.and_eq_true] at h
    simp only [skipDot]
    split
    · exact h.2
    · simpa [goodVer, List.all_cons] using h

theorem stepStr_nil : stepStr [] = (0, []) := rfl

theorem stepStr_good (l : List Char) (h : goodVer l = true) :
    goodVer (stepStr l).2 = true :=
  skipDot_good _ (parseDigits_good _ _ h)

theorem stepStr_length_le (l : List Char) : (stepStr l).2.length ≤ l.length :=
  le_trans (skipDot_length_le _) (parseDigits_length_le _ _)

theorem stepStr_length_lt (l : List Char) (h : goodVer l = true) (hne : l ≠ []) :
    (stepStr l).2.length < l.length := by
  cases l with
  | nil => exact absurd rfl hne
  | cons c cs =>
    simp only [goodVer, List.all_cons, Bool.and_eq_true, Bool.or_eq_true, beq_iff_eq] at h
    rcases h with ⟨hc, _⟩
    rcases hc with hdig | hdot
    · have h1 : (parseDigits (c :: cs) 0).2.length ≤ cs.length := by
        simp only [parseDigits, hdig, if_true]
        exact parseDigits_length_le _ _
      calc (stepStr (c :: cs)).2.length ≤ (parseDigits (c :: cs) 0).2.length :=
            skipDot_length_le _
        _ ≤ cs.length := h1
        _ < (c :: cs).length := by simp
    · subst hdot
      have hstep : stepStr ('.' :: cs) = (0, cs) := rfl
      rw [hstep]
      simp

theorem compareLoop_mono (n : Nat) (l r : List Char) (v : Int)
    (h : compareLoop n l r = some v) : compareLoop (n + 1) l r = some v := by
  induction n generalizing l r with
  | zero => simp [compareLoop] at h
  | succ m ih =>
    rw [compareLoop] at h
    rw [compareLoop]
    split_ifs at h ⊢ <;> first | exact h | exact ih _ _ h

theorem compareLoop_mono_le (m n : Nat) (l r : List Char) (v : Int)
    (hmn : m ≤ n) (h : compareLoop m l r = some v) : compareLoop n l r = some v := by
  induction hmn with
  | refl => exact h
  | step _ ih => exact compareLoop_mono _ _ _ _ ih

theorem compareLoop_good_isSome (n : Nat) (l r : List Char)
    (hl : goodVer l = true) (hr : goodVer r = true) (hn : l.length + r.length < n) :
    (compareLoop n l r).isSome = true := by
  induction n generalizing l r with
  | zero => omega
  | succ m ih =>
    rw [compareLoop]
    split
    · simp
    · split
      · simp
      · split
        · simp
        · rename_i hne
          simp only [Bool.and_eq_true, List.isEmpty_iff, not_and] at hne
          have hl' := stepStr_good l hl
          have hr' := stepStr_good r hr
          have hlen : (stepStr l).2.length + (stepStr r).2.length < l.length + r.length := by
            by_cases hle : l = []
            · have h1 : (stepStr l).2 = [] := by rw [hle]; rfl
              have h2 : (stepStr r).2 ≠ [] := hne h1
              have h3 : r ≠ [] := by
                intro h4
                exact h2 (by rw [h4]; rfl)
              have := stepStr_length_lt r hr h3
              have := stepStr_length_le l
              omega
            · have := stepStr_length_lt l hl hle
              have := stepStr_length_le r
              omega
          exact ih _ _ hl' hr' (by omega)

theorem partsList_length (l : List Char) (n : Nat) : (partsList l n).length = n := by
  induction n generalizing l with
  | zero => rfl
  | succ m ih => simp [partsList, ih]

theorem partsList_nil_eq (n : Nat) : partsList [] n = List.replicate n 0 := by
  induction n with
  | zero => rfl
  | succ m ih => simp [partsList, stepStr_nil, ih, List.replicate_succ]

theorem lexCmp_self (x : List Nat) : lexCmp x x = 0 := by
  induction x with
  | nil => rfl
  | cons a as ih => simp [lexCmp, ih]

theorem lexCmp_antisymm (x y : List Nat) : lexCmp x y = -lexCmp y x := by
  induction x generalizing y with
  | nil => cases y <;> rfl
  | cons a as ih =>
    cases y with
    | nil => rfl
    | cons b bs =>
      simp only [lexCmp]
      rcases Nat.lt_trichotomy a b with h | h | h
      · rw [if_neg (show ¬ b < a by omega), if_pos h, if_pos h]
      · subst h
        simp only [if_neg (Nat.lt_irrefl a)]
        exact ih bs
      · rw [if_pos h, if_neg (show ¬ a < b by omega), if_pos h]
        decide

theorem lexCmp_trans (x y z : List Nat) (hxy : x.length = y.length)
    (hyz : y.length = z.length) (h1 : 0 ≤ lexCmp x y) (h2 : 0 ≤ lexCmp y z) :
    0 ≤ lexCmp x z := by
  induction x generalizing y z with
  | nil =>
    cases y with
    | nil => cases z <;> simp_all [lexCmp]
    | cons b bs => simp at hxy
  | cons a as ih =>
    cases y with
    | nil => simp at hxy
    | cons b bs =>
      cases z with
      | nil => simp at hyz
      | cons c cs =>
        simp only [lexCmp] at h1 h2 ⊢
        have hba : ¬ a < b := by
          intro hab
          rw [if_neg (by omega), if_pos hab] at h1
          omega
        have hcb : ¬ b < c := by
          intro hbc
          rw [if_neg (by omega), if_pos hbc] at h2
          omega
        by_cases hca : c < a
        · rw [if_pos hca]; omega
        · rw [if_neg hca, if_neg (show ¬ a < c by omega)]
          rw [if_neg (show ¬ b < a by omega), if_neg (show ¬ a < b by omega)] at h1
          rw [if_neg (show ¬ c < b by omega), if_neg (show ¬ b < c by omega)] at h2
          exact ih bs cs (by simpa using hxy) (by simpa using hyz) h1 h2

theorem compareLoop_lex (n : Nat) (l r : List Char) (v : Int)
    (h : compareLoop n l r = some v) :
    v = lexCmp (partsList l n) (partsList r n) := by
  induction n generalizing l r with
  | zero => simp [compareLoop] at h
  | succ m ih =>
    rw [compareLoop] at h
    rw [partsList, partsList]
    split at h
    · rename_i hlt
      simp only [Option.some_inj] at h
      rw [lexCmp, if_pos hlt]
      omega
    · split at h
      · rename_i hnlt hlt
        simp only [Option.some_inj] at h
        rw [lexCmp, if_neg hnlt, if_pos hlt]
        omega
      · split at h
        · rename_i hnlt1 hnlt2 hemp
          simp only [Option.some_inj] at h
          simp only [Bool.and_eq_true, List.isEmpty_iff] at hemp
          rw [lexCmp, if_neg hnlt1, if_neg hnlt2, hemp.1, hemp.2, lexCmp_self]
          omega
        · rename_i hnlt1 hnlt2 hemp
          rw [lexCmp, if_neg hnlt1, if_neg hnlt2]
          exact ih _ _ h

/-! ## Claims about the version comparator -/

/-- C7: on well-formed version strings (dotted sequences of decimal
digits, the spec's VersionString data model) the comparator is a total
order: `compare(x,x) = 0`, `compare` is antisymmetric
(`compare(x,y) = -compare(y,x)`) and transitive on the non-negative side
(`compare(x,y) ≥ 0` and `compare(y,z) ≥ 0` imply `compare(x,z) ≥ 0`);
moreover on such inputs the loop always returns. -/
theorem compareVersionStrings_total_order (x y z : String)
    (hx : goodVer x.data = true) (hy : goodVer y.data = true)
    (hz : goodVer z.data = true) :
    compareVersionStrings x x = some 0 ∧
    (∀ v, compareVersionStrings x y = some v → compareVersionStrings y x = some (-v)) ∧
    (∀ a b, compareVersionStrings x y = some a → compareVersionStrings y z = some b →
      0 ≤ a → 0 ≤ b → ∃ c, 0 ≤ c ∧ compareVersionStrings x z = some c) := by
  have hlen : ∀ s : String, s.length = s.data.length := by
    intro s
    rcases s with ⟨d⟩
    rfl
  have hterm : ∀ (u v : String), goodVer u.data = true → goodVer v.data = true →
      ∃ w, compareVersionStrings u v = some w := by
    intro u v hu hv
    have h := compareLoop_good_isSome (u.length + v.length + 1) u.data v.data hu hv
      (by rw [hlen u, hlen v]; omega)
    exact Option.isSome_iff_exists.mp h
  refine ⟨?_, ?_, ?_⟩
  · obtain ⟨v0, hv0⟩ := hterm x x hx hx
    have h0 : v0 = 0 := by
      have hl := compareLoop_lex _ _ _ _ hv0
      rw [lexCmp_self] at hl
      exact hl
    exact h0 ▸ hv0
  · intro v hv
    obtain ⟨w, hw⟩ := hterm y x hy hx
    have hv' : compareLoop (x.length + y.length + 1) x.data y.data = some v := hv
    have hw' : compareLoop (y.length + x.length + 1) y.data x.data = some w := hw
    have hcomm : y.length + x.length + 1 = x.length + y.length + 1 := by omega
    rw [hcomm] at hw'
    have h1 := compareLoop_lex _ _ _ _ hv'
    have h2 := compareLoop_lex _ _ _ _ hw'
    have h3 : w = -v := by
      rw [h2, lexCmp_antisymm, ← h1]
    exact h3 ▸ hw
  · intro a b ha hb hha hhb
    obtain ⟨c, hc⟩ := hterm x z hx hz
    refine ⟨c, ?_, hc⟩
    have ha' : compareLoop (x.length + y.length + 1) x.data y.data = some a := ha
    have hb' : compareLoop (y.length + z.length + 1) y.data z.data = some b := hb
    have hc' : compareLoop (x.length + z.length + 1) x.data z.data = some c := hc
    have haN := compareLoop_mono_le _ (x.length + y.length + z.length + 3) _ _ _
      (by omega) ha'
    have hbN := compareLoop_mono_le _ (x.length + y.length + z.length + 3) _ _ _
      (by omega) hb'
    have hcN := compareLoop_mono_le _ (x.length + y.length + z.length + 3) _ _ _
      (by omega) hc'
    have e1 := compareLoop_lex _ _ _ _ haN
    have e2 := compareLoop_lex _ _ _ _ hbN
    have e3 := compareLoop_lex _ _ _ _ hcN
    rw [e3]
    exact lexCmp_trans _ _ _ (by rw [partsList_length, partsList_length])
      (by rw [partsList_length, partsList_length]) (e1 ▸ hha) (e2 ▸ hhb)

/-- Witness for C7 at concrete inputs: reflexivity at "1.2" and
antisymmetry applied to compare("1.2","1.0") = 1. -/
theorem compareVersionStrings_total_order_witness :
    compareVersionStrings "1.2" "1.2" = some 0 ∧
    compareVersionStrings "1.0" "1.2" = some (-1) :=
  ⟨(compareVersionStrings_total_order "1.2" "1.0" "1" (by decide) (by decide)
      (by decide)).1,
   (compareVersionStrings_total_order "1.2" "1.0" "1" (by decide) (by decide)
      (by decide)).2.1 1 (by decide)⟩

/-- C8: a string that has run out of characters contributes the segment
`0` on every further iteration (`partsList [] n` is all zeros), and the
comparator's value is exactly the lexicographic comparison of the two
segment sequences (so the shorter string is compared as if padded with
zeros); in particular compare("1.3","1.2.9") = 1, compare("1.0","1") = 0
and compare("2","1.9.9") = 1. -/
theorem compareVersionStrings_missing_segments :
    (∀ n, partsList [] n = List.replicate n 0) ∧
    (∀ fuel l r v, compareLoop fuel l r = some v →
      v = lexCmp (partsList l fuel) (partsList r fuel)) ∧
    compareVersionStrings "1.3" "1.2.9" = some 1 ∧
    compareVersionStrings "1.0" "1" = some 0 ∧
    compareVersionStrings "2" "1.9.9" = some 1 :=
  ⟨partsList_nil_eq, fun fuel l r v h => compareLoop_lex fuel l r v h,
   by decide, by decide, by decide⟩

/-- The comparator's loop makes no progress once both remainders start
with a character that is neither a digit nor a dot: from the state
`("rc1", "")` every iteration parses the segment pair `(0, 0)` and
returns to the same state. -/
theorem compareLoop_stuck_rc1 (n : Nat) : compareLoop n ['r', 'c', '1'] [] = none := by
  induction n with
  | zero => rfl
  | succ m ih => exact ih

/-- C10: `compareVersionStrings` does not terminate on every pair of
strings: comparing the tag "1.2rc1" with the running version "1.2"
reaches the state `("rc1", "")` after two iterations and then loops
forever — no amount of fuel makes the loop return. -/
theorem compareVersionStrings_no_progress :
    (∀ fuel, compareLoop fuel "1.2rc1".data "1.2".data = none) ∧
    compareVersionStrings "1.2rc1" "1.2" = none := by
  constructor
  · intro fuel
    cases fuel with
    | zero => rfl
    | succ m =>
      cases m with
      | zero => rfl
      | succ n => exact compareLoop_stuck_rc1 n
  · rfl

/-! ## Claims about the resolver's tag handling -/

theorem headMatches_append_self (p rest : List Char) :
    headMatches (p ++ rest) p = true := by
  induction p with
  | nil => cases rest <;> rfl
  | cons c cs ih => simp [headMatches, ih]

theorem findIdxAux_self (pat rest : List Char) (i : Nat) (h : pat ≠ []) :
    findIdxAux pat (pat ++ rest) i = some i := by
  cases pat with
  | nil => exact absurd rfl h
  | cons p ps =>
    have hm : headMatches (p :: (ps ++ rest)) (p :: ps) = true := by
      have h0 := headMatches_append_self (p :: ps) rest
      simpa using h0
    show findIdxAux (p :: ps) (p :: (ps ++ rest)) i = some i
    rw [findIdxAux, if_pos hm]

theorem findIdxAux_quote (l : List Char) (i : Nat) (h : ∀ c ∈ l, ¬ c = '"') :
    findIdxAux ['"'] (l ++ ['"']) i = some (i + l.length) := by
  induction l generalizing i with
  | nil => rfl
  | cons c t ih =>
    have hc : (c == '"') = false := by
      have := h c (by simp)
      simpa using this
    have hm : headMatches (c :: (t ++ ['"'])) ['"'] = false := by
      simp [headMatches, hc]
    show findIdxAux ['"'] (c :: (t ++ ['"'])) i = some (i + (c :: t).length)
    rw [findIdxAux, hm]
    simp only [Bool.false_eq_true, if_false]
    rw [ih (i + 1) fun d hd => h d (by simp [hd])]
    congr 1
    simp
    omega

/-- C4 counterexample: for a release response whose tag is "v2.0", the
resolver extracts the tag verbatim — "v2.0", not "2.0" — and
`compareVersionStrings "v2.0" "1.2"` returns -1, not 1: the leading 'v'
is not stripped and no update would be started. -/
theorem tag_v2_not_stripped :
    extractTagName "\"tag_name\":\"v2.0\"".data = "v2.0".data ∧
    "v2.0".data ≠ "2.0".data ∧
    compareVersionStrings "v2.0" "1.2" = some (-1) ∧
    ¬ compareVersionStrings "v2.0" "1.2" = some 1 := by decide

/-- C4 (amended): the resolver performs no transformation on the tag at
all — for every tag without an embedded quote, the extracted version is
the tag character for character (a leading 'v' included); a tag "v2.0"
therefore reaches the comparator as "v2.0", whose first segment parses
as 0, and compares strictly LESS than a running version "1.2". -/
theorem tag_extracted_verbatim (tag : List Char) (hq : ∀ c ∈ tag, ¬ c = '"') :
    extractTagName (tagNamePat ++ (tag ++ ['"'])) = tag ∧
    compareVersionStrings "v2.0" "1.2" = some (-1) := by
  refine ⟨?_, by decide⟩
  have h1 : findIdx (tagNamePat ++ (tag ++ ['"'])) tagNamePat = some 0 :=
    findIdxAux_self tagNamePat (tag ++ ['"']) 0 (by decide)
  have hdrop : (tagNamePat ++ (tag ++ ['"'])).drop 12 = tag ++ ['"'] := by
    have h12 : tagNamePat.length = 12 := rfl
    rw [← h12, List.drop_left]
  have h2 : findIdxFrom (tagNamePat ++ (tag ++ ['"'])) ['"'] 12 =
      some (tag.length + 12) := by
    rw [findIdxFrom, hdrop, findIdxAux_quote tag 0 hq]
    simp
  rw [extractTagName, h1]
  simp only [Nat.zero_add]
  rw [h2]
  show ((tagNamePat ++ (tag ++ ['"'])).drop 12).take (tag.length + 12 - 12) = tag
  have h3 : tag.length + 12 - 12 = tag.length := by omega
  rw [h3, hdrop, List.take_left]

/-- Witness for the amended C4 at the concrete tag "v2.0". -/
theorem tag_extracted_verbatim_witness :
    extractTagName (tagNamePat ++ ("v2.0".data ++ ['"'])) = "v2.0".data ∧
    compareVersionStrings "v2.0" "1.2" = some (-1) :=
  tag_extracted_verbatim "v2.0".data (by decide)

/-! ## Claim about the incremental digest -/

theorem sha256Update_append (st : ShaSt) (a b : List Nat) :
    sha256Update st (a ++ b) = sha256Update (sha256Update st a) b := by
  simp [sha256Update, List.foldl_append]

theorem foldl_sha256Update_flatten (st : ShaSt) (chunks : List (List Nat)) :
    List.foldl sha256Update st chunks = sha256Update st chunks.flatten := by
  induction chunks generalizing st with
  | nil => rfl
  | cons c cs ih =>
    simp only [List.foldl_cons, List.flatten_cons]
    rw [ih, sha256Update_append]

/-- C9: incremental/batch equivalence of the digest: for every byte
sequence and every partition of it into chunks, absorbing the chunks one
by one into the accumulator (as the download loop does, one
`mbedtls_sha256_update_ret` per chunk) and finalizing yields the same
digest as absorbing the whole sequence in a single pass. -/
theorem sha256_incremental_eq_batch (bs : List Nat) (chunks : List (List Nat))
    (h : chunks.flatten = bs) :
    sha256Final (List.foldl sha256Update sha256Init chunks) =
    sha256Final (sha256Update sha256Init bs) := by
  rw [← h, foldl_sha256Update_flatten]

/-- Witness for C9: the partition [[1,2],[],[3]] of [1,2,3]. -/
theorem sha256_incremental_eq_batch_witness :
    ([[1, 2], [], [3]] : List (List Nat)).flatten = [1, 2, 3] ∧
    sha256Final (List.foldl sha256Update sha256Init [[1, 2], [], [3]]) =
      sha256Final (sha256Update sha256Init [1, 2, 3]) :=
  ⟨by decide, sha256_incremental_eq_batch [1, 2, 3] [[1, 2], [], [3]] (by decide)⟩

/-! ## Lemmas about the download/write loop -/

theorem writeLoop_mem_events (chunks : List (List Nat)) :
    ∀ (writes : List (Option Nat)) (len : Nat) (sha : ShaSt) (total : Nat) (e : Ev),
      e ∈ (writeLoop chunks writes len sha total).events →
      ∃ g w, e = Ev.writeChunk g w := by
  induction chunks with
  | nil =>
    intro writes len sha total e he
    simp [writeLoop] at he
  | cons c cs ih =>
    intro writes len sha total e he
    simp only [writeLoop] at he
    split_ifs at he
    · simp at he
    · simp only [List.mem_singleton] at he
      exact ⟨_, _, he⟩
    · rcases List.mem_cons.mp he with h | h
      · exact ⟨_, _, h⟩
      · exact ih _ _ _ _ _ h
    · simp at he

theorem writeLoop_not_mem (chunks : List (List Nat)) (writes : List (Option Nat))
    (len : Nat) (sha : ShaSt) (total : Nat) (e : Ev)
    (hne : ∀ g w, ¬ e = Ev.writeChunk g w) :
    ¬ e ∈ (writeLoop chunks writes len sha total).events := by
  intro he
  rcases writeLoop_mem_events chunks writes len sha total e he with ⟨g, w, h⟩
  exact hne g w h

theorem writeLoop_err_code (chunks : List (List Nat)) :
    ∀ (writes : List (Option Nat)) (len : Nat) (sha : ShaSt) (total : Nat) (c : String),
      (writeLoop chunks writes len sha total).err = some c →
      c = "FIRMWARE_WRITE_INCOMPLETE" := by
  induction chunks with
  | nil =>
    intro writes len sha total c h
    simp [writeLoop] at h
  | cons ch cs ih =>
    intro writes len sha total c h
    simp only [writeLoop] at h
    split_ifs at h
    · simp_all
    · exact ih _ _ _ _ _ (by simpa using h)

theorem writeLoop_err_none_full (chunks : List (List Nat)) :
    ∀ (writes : List (Option Nat)) (len : Nat) (sha : ShaSt) (total : Nat),
      (writeLoop chunks writes len sha total).err = none →
      ∀ g w, Ev.writeChunk g w ∈ (writeLoop chunks writes len sha total).events →
        w = g := by
  induction chunks with
  | nil =>
    intro writes len sha total _ g w hm
    simp [writeLoop] at hm
  | cons c cs ih =>
    intro writes len sha total herr g w hm
    simp only [writeLoop] at herr hm
    split_ifs at herr hm
    · simp at hm
    · rename_i hlt hlen hfull
      have hww : (writes.headD none).getD c.length = c.length := by
        by_contra hx
        exact hfull hx
      have herr2 : (writeLoop cs writes.tail len (sha256Update sha c)
          (total + c.length)).err = none := by simpa using herr
      have hm2 : g = c.length ∧ w = (writes.headD none).getD c.length ∨
          Ev.writeChunk g w ∈ (writeLoop cs writes.tail len (sha256Update sha c)
            (total + c.length)).events := by simpa using hm
      rcases hm2 with ⟨h1, h2⟩ | h
      · omega
      · exact ih _ _ _ _ herr2 _ _ h
    · simp at hm

theorem writeLoop_total_le (chunks : List (List Nat)) :
    ∀ (writes : List (Option Nat)) (len : Nat) (sha : ShaSt) (total : Nat),
      (writeLoop chunks writes len sha total).total ≤
        total + (chunks.map List.length).sum := by
  induction chunks with
  | nil =>
    intro writes len sha total
    simp [writeLoop]
  | cons c cs ih =>
    intro writes len sha total
    simp only [writeLoop]
    split_ifs
    · simp
    · simp only [List.map_cons, List.sum_cons]
      omega
    · simp only [List.map_cons, List.sum_cons]
      have := ih writes.tail len (sha256Update sha c) (total + c.length)
      omega
    · simp

/-! ## Claims about the update orchestrator -/

/-- Exhaustive case analysis of one `performSecureUpdate` run: the three
pre-transaction error exits, and — once `Update.begin` succeeded — the
incomplete-write exit, the signature-download exit, the
verification-failure exit, the commit-failure exit and the success exit,
each with its full event trace. -/
theorem run_shape (env : Env) :
    (env.fwHttpCode ≠ 200 ∧ performSecureUpdate env =
      ⟨[Ev.fail "FIRMWARE_DOWNLOAD_FAILED"], some "FIRMWARE_DOWNLOAD_FAILED", 0⟩) ∨
    (env.contentLength ≤ 0 ∧ performSecureUpdate env =
      ⟨[Ev.fail "INVALID_FIRMWARE_SIZE"], some "INVALID_FIRMWARE_SIZE", 0⟩) ∨
    (env.beginOk = false ∧ performSecureUpdate env =
      ⟨[Ev.fail "INSUFFICIENT_SPACE"], some "INSUFFICIENT_SPACE", 0⟩) ∨
    (∃ lo : LoopOut,
      lo = writeLoop env.chunks env.writes env.contentLength.toNat sha256Init 0 ∧
      ((performSecureUpdate env =
        ⟨Ev.beginFlash env.contentLength.toNat :: lo.events ++
          [Ev.abortFlash, Ev.fail "FIRMWARE_WRITE_INCOMPLETE"],
         some "FIRMWARE_WRITE_INCOMPLETE", lo.total⟩) ∨
       (lo.err = none ∧ lo.total = env.contentLength.toNat ∧ env.sigHttpCode ≠ 200 ∧
        performSecureUpdate env =
        ⟨Ev.beginFlash env.contentLength.toNat :: lo.events ++
          [Ev.shaFinish, Ev.abortFlash, Ev.fail "SIGNATURE_DOWNLOAD_FAILED"],
         some "SIGNATURE_DOWNLOAD_FAILED", lo.total⟩) ∨
       (lo.err = none ∧ lo.total = env.contentLength.toNat ∧ env.verifyOk = false ∧
        performSecureUpdate env =
        ⟨Ev.beginFlash env.contentLength.toNat :: lo.events ++
          [Ev.shaFinish, Ev.verifySig false, Ev.abortFlash,
           Ev.fail "SIGNATURE_VERIFICATION_FAILED"],
         some "SIGNATURE_VERIFICATION_FAILED", lo.total⟩) ∨
       (lo.err = none ∧ lo.total = env.contentLength.toNat ∧ env.verifyOk = true ∧
        env.endOk = false ∧
        performSecureUpdate env =
        ⟨Ev.beginFlash env.contentLength.toNat :: lo.events ++
          [Ev.shaFinish, Ev.verifySig true, Ev.endFlash false,
           Ev.fail "UPDATE_FINALIZE_FAILED"],
         some "UPDATE_FINALIZE_FAILED", lo.total⟩) ∨
       (lo.err = none ∧ lo.total = env.contentLength.toNat ∧ env.verifyOk = true ∧
        env.endOk = true ∧
        performSecureUpdate env =
        ⟨Ev.beginFlash env.contentLength.toNat :: lo.events ++
          [Ev.shaFinish, Ev.verifySig true, Ev.endFlash true, Ev.restart],
         none, lo.total⟩))) := by
  by_cases h1 : env.fwHttpCode ≠ 200
  · exact Or.inl ⟨h1, by rw [performSecureUpdate, if_pos h1]⟩
  · by_cases h2 : env.contentLength ≤ 0
    · exact Or.inr (Or.inl ⟨h2, by rw [performSecureUpdate, if_neg h1, if_pos h2]⟩)
    · by_cases h3 : env.beginOk = false
      · exact Or.inr (Or.inr (Or.inl ⟨h3,
          by rw [performSecureUpdate, if_neg h1, if_neg h2, if_pos h3]⟩))
      · refine Or.inr (Or.inr (Or.inr ⟨_, rfl, ?_⟩))
        rcases herr : (writeLoop env.chunks env.writes env.contentLength.toNat
            sha256Init 0).err with _ | code
        · by_cases htot : (writeLoop env.chunks env.writes env.contentLength.toNat
              sha256Init 0).total = env.contentLength.toNat
          · by_cases hsig : env.sigHttpCode ≠ 200
            · refine Or.inr (Or.inl ⟨rfl, htot, hsig, ?_⟩)
              rw [performSecureUpdate, if_neg h1, if_neg h2, if_neg h3]
              simp [herr, htot, hsig]
            · by_cases hvf : env.verifyOk = false
              · refine Or.inr (Or.inr (Or.inl ⟨rfl, htot, hvf, ?_⟩))
                rw [performSecureUpdate, if_neg h1, if_neg h2, if_neg h3]
                simp [herr, htot, hsig, hvf]
              · have hvt : env.verifyOk = true := by
                  cases hv : env.verifyOk
                  · exact absurd hv hvf
                  · rfl
                by_cases hend : env.endOk = false
                · refine Or.inr (Or.inr (Or.inr (Or.inl ⟨rfl, htot, hvt, hend, ?_⟩)))
                  rw [performSecureUpdate, if_neg h1, if_neg h2, if_neg h3]
                  simp [herr, htot, hsig, hvt, hend]
                · have hendt : env.endOk = true := by
                    cases he : env.endOk
                    · exact absurd he hend
                    · rfl
                  refine Or.inr (Or.inr (Or.inr (Or.inr ⟨rfl, htot, hvt, hendt, ?_⟩)))
                  rw [performSecureUpdate, if_neg h1, if_neg h2, if_neg h3]
                  simp [herr, htot, hsig, hvt, hendt]
          · refine Or.inl ?_
            rw [performSecureUpdate, if_neg h1, if_neg h2, if_neg h3]
            simp [herr, htot]
        · have hcode : code = "FIRMWARE_WRITE_INCOMPLETE" :=
            writeLoop_err_code _ _ _ _ _ _ herr
          subst hcode
          refine Or.inl ?_
          rw [performSecureUpdate, if_neg h1, if_neg h2, if_neg h3]
          simp [herr]

/-- C1: in every run in which signature verification returns false, the
open flash transaction is aborted and `Update.end` (the flash commit) is
never invoked; conversely, `Update.end` is invoked only in runs in which
verification returned true. -/
theorem verify_false_aborts_no_commit (env : Env) :
    (Ev.verifySig false ∈ (performSecureUpdate env).events →
      Ev.abortFlash ∈ (performSecureUpdate env).events ∧
      ∀ b, ¬ Ev.endFlash b ∈ (performSecureUpdate env).events) ∧
    (∀ b, Ev.endFlash b ∈ (performSecureUpdate env).events →
      Ev.verifySig true ∈ (performSecureUpdate env).events) := by
  have hvs : ∀ b, ¬ Ev.verifySig b ∈ (writeLoop env.chunks env.writes
      env.contentLength.toNat sha256Init 0).events :=
    fun b => writeLoop_not_mem _ _ _ _ _ _ (fun g w h => nomatch h)
  have hef : ∀ b, ¬ Ev.endFlash b ∈ (writeLoop env.chunks env.writes
      env.contentLength.toNat sha256Init 0).events :=
    fun b => writeLoop_not_mem _ _ _ _ _ _ (fun g w h => nomatch h)
  rcases run_shape env with ⟨_, hrun⟩ | ⟨_, hrun⟩ | ⟨_, hrun⟩ | ⟨lo, hlo, hcase⟩
  · rw [hrun]; simp
  · rw [hrun]; simp
  · rw [hrun]; simp
  · subst hlo
    rcases hcase with hrun | ⟨_, _, _, hrun⟩ | ⟨_, _, _, hrun⟩ | ⟨_, _, _, _, hrun⟩ |
      ⟨_, _, _, _, hrun⟩ <;> rw [hrun] <;> simp [hvs, hef]

/-- Witness for C1: a run whose verification returns false (the flash
transaction is aborted there). -/
theorem verify_false_aborts_no_commit_witness :
    Ev.abortFlash ∈
      (performSecureUpdate ⟨200, 1, true, [[7]], [], 200, false, true⟩).events :=
  ((verify_false_aborts_no_commit ⟨200, 1, true, [[7]], [], 200, false, true⟩).1
    (by decide)).1

/-- C3 counterexample: in the run where everything succeeds up to the
final commit and `Update.end` itself fails, the error
UPDATE_FINALIZE_FAILED is surfaced with the transaction opened but
`Update.abort()` is NOT invoked — the claim's "including failure of the
final commit" does not hold of the code (lines 310-315 call
`handleErrorState` without `Update.abort()`). -/
theorem finalize_failure_no_abort_cex :
    (performSecureUpdate ⟨200, 2, true, [[1, 2]], [], 200, true, false⟩).result =
      some "UPDATE_FINALIZE_FAILED" ∧
    Ev.beginFlash 2 ∈
      (performSecureUpdate ⟨200, 2, true, [[1, 2]], [], 200, true, false⟩).events ∧
    ¬ Ev.abortFlash ∈
      (performSecureUpdate ⟨200, 2, true, [[1, 2]], [], 200, true, false⟩).events ∧
    Ev.endFlash false ∈
      (performSecureUpdate ⟨200, 2, true, [[1, 2]], [], 200, true, false⟩).events := by
  decide

/-- C3 (amended): after `Update.begin` succeeded, every error exit except
failure of the final commit itself (`UPDATE_FINALIZE_FAILED`, where the
failed `Update.end` call has already closed the transaction) invokes
`Update.abort()` before the error is surfaced; `Update.end` is attempted
only after verification succeeded, and the unique success run commits
without ever aborting. -/
theorem abort_on_error_after_begin (env : Env) :
    (∀ code, (performSecureUpdate env).result = some code →
      Ev.beginFlash env.contentLength.toNat ∈ (performSecureUpdate env).events →
      ¬ code = "UPDATE_FINALIZE_FAILED" →
      Ev.abortFlash ∈ (performSecureUpdate env).events) ∧
    (∀ b, Ev.endFlash b ∈ (performSecureUpdate env).events →
      Ev.verifySig true ∈ (performSecureUpdate env).events) ∧
    ((performSecureUpdate env).result = none →
      Ev.endFlash true ∈ (performSecureUpdate env).events ∧
      ¬ Ev.abortFlash ∈ (performSecureUpdate env).events) := by
  have hef : ∀ b, ¬ Ev.endFlash b ∈ (writeLoop env.chunks env.writes
      env.contentLength.toNat sha256Init 0).events :=
    fun b => writeLoop_not_mem _ _ _ _ _ _ (fun g w h => nomatch h)
  have hab : ¬ Ev.abortFlash ∈ (writeLoop env.chunks env.writes
      env.contentLength.toNat sha256Init 0).events :=
    writeLoop_not_mem _ _ _ _ _ _ (fun g w h => nomatch h)
  rcases run_shape env with ⟨_, hrun⟩ | ⟨_, hrun⟩ | ⟨_, hrun⟩ | ⟨lo, hlo, hcase⟩
  · rw [hrun]; simp
  · rw [hrun]; simp
  · rw [hrun]; simp
  · subst hlo
    rcases hcase with hrun | ⟨_, _, _, hrun⟩ | ⟨_, _, _, hrun⟩ | ⟨_, _, _, _, hrun⟩ |
      ⟨_, _, _, _, hrun⟩ <;> rw [hrun] <;> simp [hef, hab]

/-- Witness for the amended C3: on the verification-failure run the error
path after a successful begin does invoke abort. -/
theorem abort_on_error_after_begin_witness :
    Ev.abortFlash ∈
      (performSecureUpdate ⟨200, 1, true, [[7]], [], 200, false, true⟩).events :=
  (abort_on_error_after_begin ⟨200, 1, true, [[7]], [], 200, false, true⟩).1
    "SIGNATURE_VERIFICATION_FAILED" (by decide) (by decide) (by decide)

/-- C5 counterexample: when `Update.write` reports 2 of 3 bytes written,
the run terminates with FIRMWARE_WRITE_INCOMPLETE — not with the
FIRMWARE_WRITE_ERROR code the claim names, which the program never
emits (lines 263-268 pass "FIRMWARE_WRITE_INCOMPLETE" to
`handleErrorState` for a short write). -/
theorem short_write_code_cex :
    Ev.writeChunk 3 2 ∈
      (performSecureUpdate ⟨200, 3, true, [[1, 2, 3]], [some 2], 200, true, true⟩).events ∧
    (performSecureUpdate ⟨200, 3, true, [[1, 2, 3]], [some 2], 200, true, true⟩).result =
      some "FIRMWARE_WRITE_INCOMPLETE" ∧
    ¬ (performSecureUpdate ⟨200, 3, true, [[1, 2, 3]], [some 2], 200, true, true⟩).result =
      some "FIRMWARE_WRITE_ERROR" ∧
    ¬ Ev.fail "FIRMWARE_WRITE_ERROR" ∈
      (performSecureUpdate ⟨200, 3, true, [[1, 2, 3]], [some 2], 200, true, true⟩).events := by
  decide

/-- C5 (amended): whenever a forwarded chunk's `Update.write` call
reports writing fewer bytes than it was given, the run terminates with
error code FIRMWARE_WRITE_INCOMPLETE (the single code the program uses
both for short writes and for a short stream). -/
theorem short_write_gives_incomplete (env : Env) (g w : Nat)
    (hmem : Ev.writeChunk g w ∈ (performSecureUpdate env).events)
    (hshort : ¬ w = g) :
    (performSecureUpdate env).result = some "FIRMWARE_WRITE_INCOMPLETE" := by
  rcases run_shape env with ⟨_, hrun⟩ | ⟨_, hrun⟩ | ⟨_, hrun⟩ | ⟨lo, hlo, hcase⟩
  · rw [hrun] at hmem; simp at hmem
  · rw [hrun] at hmem; simp at hmem
  · rw [hrun] at hmem; simp at hmem
  · subst hlo
    rcases hcase with hrun | ⟨herr, _, _, hrun⟩ | ⟨herr, _, _, hrun⟩ |
      ⟨herr, _, _, _, hrun⟩ | ⟨herr, _, _, _, hrun⟩
    · rw [hrun]
    all_goals {
      rw [hrun] at hmem
      have hmem2 : Ev.writeChunk g w ∈ (writeLoop env.chunks env.writes
          env.contentLength.toNat sha256Init 0).events := by
        simpa using hmem
      exact absurd (writeLoop_err_none_full _ _ _ _ _ herr g w hmem2) hshort
    }

/-- Witness for the amended C5: the short-write run above. -/
theorem short_write_gives_incomplete_witness :
    (performSecureUpdate ⟨200, 3, true, [[1, 2, 3]], [some 2], 200, true, true⟩).result =
      some "FIRMWARE_WRITE_INCOMPLETE" :=
  short_write_gives_incomplete ⟨200, 3, true, [[1, 2, 3]], [some 2], 200, true, true⟩
    3 2 (by decide) (by decide)

/-- The digest is finalized (`mbedtls_sha256_finish_ret`, line 283) only
on runs whose cumulative written byte count equals the expected content
length exactly. -/
theorem finish_only_on_exact_length (e : Env) :
    Ev.shaFinish ∈ (performSecureUpdate e).events →
    (performSecureUpdate e).total = e.contentLength.toNat := by
  have hsf : ¬ Ev.shaFinish ∈ (writeLoop e.chunks e.writes
      e.contentLength.toNat sha256Init 0).events :=
    writeLoop_not_mem _ _ _ _ _ _ (fun g w h => nomatch h)
  intro hmem
  rcases run_shape e with ⟨_, hrun⟩ | ⟨_, hrun⟩ | ⟨_, hrun⟩ | ⟨lo, hlo, hcase⟩
  · rw [hrun] at hmem; simp at hmem
  · rw [hrun] at hmem; simp at hmem
  · rw [hrun] at hmem; simp at hmem
  · subst hlo
    rcases hcase with hrun | ⟨_, htot, _, hrun⟩ | ⟨_, htot, _, hrun⟩ |
      ⟨_, htot, _, _, hrun⟩ | ⟨_, htot, _, _, hrun⟩
    · rw [hrun] at hmem
      rcases (by simpa using hmem :
          Ev.shaFinish ∈ (writeLoop e.chunks e.writes e.contentLength.toNat
            sha256Init 0).events) with h
      exact absurd h hsf
    all_goals rw [hrun]; exact htot

/-- C6: when the byte source delivers fewer total bytes than the expected
content length and then stops (after the download and transaction began),
the run terminates with FIRMWARE_WRITE_INCOMPLETE and the flash sink's
abort is invoked exactly once; and in any run whatsoever the digest is
finalized only when the cumulative bytes written equal the expected
length exactly. -/
theorem short_stream_incomplete (env : Env)
    (h200 : env.fwHttpCode = 200) (hlen : 0 < env.contentLength)
    (hbeg : env.beginOk = true)
    (hsum : (env.chunks.map List.length).sum < env.contentLength.toNat) :
    (performSecureUpdate env).result = some "FIRMWARE_WRITE_INCOMPLETE" ∧
    ((performSecureUpdate env).events.count Ev.abortFlash) = 1 ∧
    ¬ Ev.shaFinish ∈ (performSecureUpdate env).events ∧
    ∀ e : Env, Ev.shaFinish ∈ (performSecureUpdate e).events →
      (performSecureUpdate e).total = e.contentLength.toNat := by
  have hab : ¬ Ev.abortFlash ∈ (writeLoop env.chunks env.writes
      env.contentLength.toNat sha256Init 0).events :=
    writeLoop_not_mem _ _ _ _ _ _ (fun g w h => nomatch h)
  have hsf : ¬ Ev.shaFinish ∈ (writeLoop env.chunks env.writes
      env.contentLength.toNat sha256Init 0).events :=
    writeLoop_not_mem _ _ _ _ _ _ (fun g w h => nomatch h)
  have hcnt0 : ((writeLoop env.chunks env.writes env.contentLength.toNat
      sha256Init 0).events.count Ev.abortFlash) = 0 :=
    List.count_eq_zero.mpr hab
  have htle := writeLoop_total_le env.chunks env.writes env.contentLength.toNat
    sha256Init 0
  rcases run_shape env with ⟨h, _⟩ | ⟨h, _⟩ | ⟨h, _⟩ | ⟨lo, hlo, hcase⟩
  · exact absurd h200 h
  · omega
  · rw [hbeg] at h; exact absurd h (by simp)
  · subst hlo
    rcases hcase with hrun | ⟨_, htot, _, _⟩ | ⟨_, htot, _, _⟩ |
      ⟨_, htot, _, _, _⟩ | ⟨_, htot, _, _, _⟩
    · refine ⟨by rw [hrun], ?_, ?_, fun e hm => finish_only_on_exact_length e hm⟩
      · rw [hrun]
        simp [List.count_cons, List.count_append, hcnt0]
      · rw [hrun]
        simp [hsf]
    all_goals omega

/-- Witness for C6: a two-byte stream against an expected length of 5. -/
theorem short_stream_incomplete_witness :
    (performSecureUpdate ⟨200, 5, true, [[1, 2]], [], 200, true, true⟩).result =
      some "FIRMWARE_WRITE_INCOMPLETE" ∧
    ((performSecureUpdate ⟨200, 5, true, [[1, 2]], [], 200, true, true⟩).events.count
      Ev.abortFlash) = 1 :=
  ⟨(short_stream_incomplete ⟨200, 5, true, [[1, 2]], [], 200, true, true⟩
      (by decide) (by decide) (by decide) (by decide)).1,
   (short_stream_incomplete ⟨200, 5, true, [[1, 2]], [], 200, true, true⟩
      (by decide) (by decide) (by decide) (by decide)).2.1⟩

/-- C2 (code evidence): `handleErrorState` (lines 375-380) only logs and
delays — it changes no global state, and no lockout flag exists among the
globals (lines 20-21) — so after an update attempt fails, the very next
scheduler tick at which UPDATE_CHECK_INTERVAL has elapsed and WiFi is
connected invokes `checkForUpdates` again: here an attempt fails with
SIGNATURE_VERIFICATION_FAILED at millis 0 and the tick at millis 60000
(interval 60000) starts a new check. -/
theorem error_handler_keeps_scheduling :
    (∀ (s : SchedState) (code : String), handleErrorState s code = s) ∧
    (loopStep (handleErrorState ⟨0, 0⟩ "SIGNATURE_VERIFICATION_FAILED")
      60000 true 60000 10000).2 = true :=
  ⟨fun _ _ => rfl, by decide⟩
